import Mathlib

/-!
Shallow embedding of `scripts/subtitle_to_text.py` (subtitle-to-document).

Text is represented as `List Char` (one entry per Unicode code point, matching
Python's `str` indexing).  Each Python function is translated to an executable
Lean function of the same name where Lean allows it.  Regular-expression
operations are translated to explicit scanning functions; each translation
records, in its doc comment, the regex it models and why the scan is
equivalent.  Functions whose natural recursion is not structural take an
explicit fuel argument (always called with fuel = length of the input, which
is strictly more than the scan can consume), keeping every definition
kernel-reducible so that concrete inputs can be settled by `decide`.

Python's float threshold comparison `count > len(text) * 0.3` is modelled by
the exact rational comparison `10 * count > 3 * len`.  For `len < 2 ^ 50` the
IEEE-double computation `len * 0.3` rounds to a value strictly between the
neighbouring integers unless `10 ∣ 3 * len`, in which case it rounds to the
exact integer `3 * len / 10`; in both cases the integer comparison agrees
with the rational one, so the model is exact on all realistic inputs.

Case mapping (`str.lower`, `str.upper`, `islower`, regex `IGNORECASE`) is
modelled on ASCII via `Char.toLower`/`Char.toUpper`; the whitespace class
models the ASCII part of Python's `\s` plus the common Unicode spaces that
the pipeline can meet.
-/

set_option maxRecDepth 1000000

namespace Subtitle

/-- Convert a string literal to the list-of-characters representation used
throughout this development. -/
def cstr (s : String) : List Char := s.toList

/-- Characters treated as whitespace: the ASCII whitespace matched by
Python's `\s` and stripped by `str.strip`, plus NEL, NBSP and the
ideographic space. -/
def isSpace (c : Char) : Bool :=
  c = ' ' || c = '\t' || c = '\n' || c = '\r' || c = '\x0b' || c = '\x0c' ||
  c = '\x85' || c = '\xa0' || c = '　'

/-- Python `str.lstrip()`. -/
def lstrip (s : List Char) : List Char := s.dropWhile (fun c => isSpace c)

/-- Python `str.rstrip()`. -/
def rstrip (s : List Char) : List Char :=
  (s.reverse.dropWhile (fun c => isSpace c)).reverse

/-- Python `str.strip()`. -/
def strip (s : List Char) : List Char := rstrip (lstrip s)

/-- ASCII lower-casing of one character (models `str.lower` on the
characters this program manipulates). -/
def lowerChar (c : Char) : Char := c.toLower

/-- Python `str.lower()`. -/
def lower (s : List Char) : List Char := s.map lowerChar

/-- `p` is a prefix of `s` (Boolean). -/
def prefixOfB : List Char → List Char → Bool
  | [], _ => true
  | _ :: _, [] => false
  | c :: p, x :: xs => x = c && prefixOfB p xs

/-- Python `s.startswith(p)`. -/
def startsWithB (p s : List Char) : Bool := prefixOfB p s

/-- Python `p in s` (substring containment). -/
def containsSubB (p s : List Char) : Bool := s.tails.any (fun t => prefixOfB p t)

/-- Case-insensitive prefix test, modelling `re.IGNORECASE` matching of a
literal alternative. -/
def prefixOfCI : List Char → List Char → Bool
  | [], _ => true
  | _ :: _, [] => false
  | c :: p, x :: xs => lowerChar x = lowerChar c && prefixOfCI p xs

/-- Python `str.split(sep)` for a one-character separator (keeps empty
pieces, as Python does). -/
def splitOnChar (sep : Char) : List Char → List (List Char)
  | [] => [[]]
  | c :: rest =>
    if c = sep then [] :: splitOnChar sep rest
    else
      match splitOnChar sep rest with
      | [] => [[c]]
      | l :: ls => (c :: l) :: ls

/-- Python `sep.join(pieces)`. -/
def joinSep (sep : List Char) : List (List Char) → List Char
  | [] => []
  | [x] => x
  | x :: y :: r => x ++ sep ++ joinSep sep (y :: r)

/-- `raw.replace('\r\n', '\n').replace('\r', '\n')` from
`parse_subtitle_file`: the two sequential replaces turn every `\r\n` pair
into one `\n` and every remaining `\r` into `\n`, which is what this single
left-to-right pass does. -/
def normalizeNewlines : List Char → List Char
  | [] => []
  | c :: rest =>
    if c = '\r' then
      match rest with
      | c2 :: r2 =>
        if c2 = '\n' then '\n' :: normalizeNewlines r2
        else '\n' :: normalizeNewlines (c2 :: r2)
      | [] => ['\n']
    else c :: normalizeNewlines rest

/-! ### Language profile registry (`LANGUAGE_CONFIGS`) -/

/-- One entry of a language's `annotations` list.

`bracketAny` models the bracket patterns
`\[(?:Music|Applause|Laughter|Inaudible|.*?)\]` (and their zh variants):
because the final lazy alternative `.*?\]` matches any run of non-newline
characters up to the *first* following `]`, and the word alternatives only
succeed when a `]` directly follows the word (which is again the first `]`,
as no word contains `]`), every such pattern deletes exactly the spans from
a `[` to the nearest later `]` with no newline in between, scanning left to
right.  `parenWords ws` models `\((?:w1|w2|...)\)`, which deletes `(w)` for
`w` in `ws`, case-insensitively; no listed word is a prefix of another, so
alternative order is irrelevant. -/
inductive AnnPattern where
  | bracketAny
  | parenWords (words : List (List Char))

/-- One value of the `LANGUAGE_CONFIGS` dictionary. -/
structure LangConfig where
  /-- The character class of `sentence_end` (the regex is `[class][\s]*$`). -/
  sentEnd : List Char
  /-- The `annotations` regex list, in source order. -/
  annPats : List AnnPattern
  /-- `fix_capitalization` flag. -/
  fixCapFlag : Bool
  /-- `space_join` (present in the source configuration, never read). -/
  spaceJoin : List Char

/-- English annotation words (`Music|Applause|Laughter|Inaudible`). -/
def enAnnWords : List (List Char) :=
  [cstr "Music", cstr "Applause", cstr "Laughter", cstr "Inaudible"]

/-- Traditional-Chinese annotation words (`音樂|掌聲|笑聲|無法聽清`). -/
def zhTwAnnWords : List (List Char) :=
  [cstr "音樂", cstr "掌聲", cstr "笑聲", cstr "無法聽清"]

/-- Simplified-Chinese annotation words (`音乐|掌声|笑声|无法听清`). -/
def zhCnAnnWords : List (List Char) :=
  [cstr "音乐", cstr "掌声", cstr "笑声", cstr "无法听清"]

/-- `LANGUAGE_CONFIGS['en']`. -/
def enConfig : LangConfig :=
  { sentEnd := ['.', '!', '?'],
    annPats := [AnnPattern.bracketAny, AnnPattern.parenWords enAnnWords],
    fixCapFlag := true,
    spaceJoin := [' '] }

/-- `LANGUAGE_CONFIGS['zh_tw']`: zh bracket pattern, zh paren pattern, then
the English bracket pattern (both bracket patterns reduce to the same
catch-all deletion, see `AnnPattern`). -/
def zhTwConfig : LangConfig :=
  { sentEnd := ['。', '！', '？'],
    annPats := [AnnPattern.bracketAny, AnnPattern.parenWords zhTwAnnWords,
                AnnPattern.bracketAny],
    fixCapFlag := false,
    spaceJoin := [] }

/-- `LANGUAGE_CONFIGS['zh_cn']`. -/
def zhCnConfig : LangConfig :=
  { sentEnd := ['。', '！', '？'],
    annPats := [AnnPattern.bracketAny, AnnPattern.parenWords zhCnAnnWords,
                AnnPattern.bracketAny],
    fixCapFlag := false,
    spaceJoin := [] }

/-- `LANGUAGE_CONFIGS.get(lang, LANGUAGE_CONFIGS['en'])`: the dictionary
lookup with English default used by every language-dependent stage. -/
def configGet (lang : List Char) : LangConfig :=
  if lang = cstr "en" then enConfig
  else if lang = cstr "zh_tw" then zhTwConfig
  else if lang = cstr "zh_cn" then zhCnConfig
  else enConfig

/-! ### `detect_language` -/

/-- Membership in the CJK Unified Ideographs block, the class
`[一-鿿]`. -/
def isCJK (c : Char) : Bool := '一' ≤ c && c ≤ '鿿'

/-- The ten Traditional-Chinese indicator characters. -/
def traditional_indicators : List Char :=
  ['臺', '灣', '繁', '體', '應', '為', '們', '個', '這', '説']

/-- The ten Simplified-Chinese indicator characters. -/
def simplified_indicators : List Char :=
  ['台', '湾', '简', '体', '应', '为', '们', '个', '这', '说']

/-- `sum(1 for char in inds if char in text)`: how many of the indicator
characters occur (at least once) in the text. -/
def indicatorHits (inds : List Char) (text : List Char) : Nat :=
  (inds.filter (fun c => text.contains c)).length

/-- Total number of occurrences in `text` of characters from `inds` (the
"count of occurrences" reading; defined for comparison with
`indicatorHits`, which is what the source computes). -/
def occTotal (inds : List Char) (text : List Char) : Nat :=
  (text.filter (fun c => inds.contains c)).length

/-- `detect_language`: empty text is English; if the CJK-ideograph count
exceeds 30% of the length (`count > len(text) * 0.3`, modelled exactly as
`10 * count > 3 * len`, see the file header), disambiguate by the indicator
hits (ties favour Simplified); otherwise English. -/
def detect_language (text : List Char) : List Char :=
  if text = [] then cstr "en"
  else
    if 10 * (text.filter isCJK).length > 3 * text.length then
      if indicatorHits traditional_indicators text >
         indicatorHits simplified_indicators text
      then cstr "zh_tw" else cstr "zh_cn"
    else cstr "en"

/-! ### `remove_subtitle_formatting` -/

/-- Index of the first `'>'`. -/
def findGt : List Char → Option Nat
  | [] => none
  | c :: rest => if c = '>' then some 0 else (findGt rest).map (fun k => k + 1)

/-- `re.sub(r'<v\s+[^>]*>', '', text)` with fuel: at `<v` followed by a
whitespace character, the greedy `\s+` then `[^>]*` together consume
exactly up to the first following `'>'` (whitespace is never `'>'`), so the
match spans from the `<` to that `'>'`; otherwise scanning resumes at the
next character.  Fuel exhaustion (never reached from the wrapper) returns
the input. -/
def removeVTagsF : Nat → List Char → List Char
  | 0, s => s
  | _ + 1, [] => []
  | n + 1, '<' :: 'v' :: c2 :: r2 =>
    if isSpace c2 then
      match findGt (c2 :: r2) with
      | some k => removeVTagsF n ((c2 :: r2).drop (k + 1))
      | none => '<' :: removeVTagsF n ('v' :: c2 :: r2)
    else '<' :: removeVTagsF n ('v' :: c2 :: r2)
  | n + 1, c :: rest => c :: removeVTagsF n rest

/-- Wrapper running `removeVTagsF` with sufficient fuel. -/
def removeVTags (s : List Char) : List Char := removeVTagsF s.length s

/-- `re.sub(r'</?[^>]+>', '', text)` with fuel: at a `<`, the pattern
matches exactly when the first `'>'` strictly after it is at distance at
least 2 (so `[^>]+` is nonempty, with `/?` free to absorb a leading slash),
and the match ends at that `'>'`. -/
def removeAngleTagsF : Nat → List Char → List Char
  | 0, s => s
  | _ + 1, [] => []
  | n + 1, c :: rest =>
    if c = '<' then
      match findGt rest with
      | some (k + 1) => removeAngleTagsF n (rest.drop (k + 2))
      | _ => c :: removeAngleTagsF n rest
    else c :: removeAngleTagsF n rest

/-- Wrapper running `removeAngleTagsF` with sufficient fuel. -/
def removeAngleTags (s : List Char) : List Char := removeAngleTagsF s.length s

/-- `remove_subtitle_formatting`: strip `<v ...>` tags, then any remaining
angle-bracket tag. -/
def remove_subtitle_formatting (text : List Char) : List Char :=
  removeAngleTags (removeVTags text)

/-! ### `remove_annotations` -/

/-- Index of the first `']'` reachable without crossing a newline (`.` in
the bracket patterns does not match `\n`). -/
def closeIdx : List Char → Option Nat
  | [] => none
  | c :: rest =>
    if c = ']' then some 0
    else if c = '\n' then none
    else (closeIdx rest).map (fun k => k + 1)

/-- Catch-all bracket deletion (see `AnnPattern.bracketAny`) with fuel:
delete from each `[` through the nearest later `]` with no intervening
newline; a `[` with no such `]` is kept and scanning resumes after it. -/
def removeBracketsF : Nat → List Char → List Char
  | 0, s => s
  | _ + 1, [] => []
  | n + 1, c :: rest =>
    if c = '[' then
      match closeIdx rest with
      | some k => removeBracketsF n (rest.drop (k + 1))
      | none => c :: removeBracketsF n rest
    else c :: removeBracketsF n rest

/-- Wrapper running `removeBracketsF` with sufficient fuel. -/
def removeBrackets (s : List Char) : List Char := removeBracketsF s.length s

/-- At the text following a `'('`, the number of characters (word plus the
closing paren) consumed by the first alternative of `\((?:w1|...)\)` that
matches case-insensitively, if any. -/
def parenMatch (words : List (List Char)) (s : List Char) : Option Nat :=
  words.findSome? (fun w =>
    if prefixOfCI (w ++ [')']) s then some (w.length + 1) else none)

/-- `re.sub(r'\((?:w1|...)\)', '', text, flags=re.IGNORECASE)` with fuel. -/
def removeParensF (words : List (List Char)) : Nat → List Char → List Char
  | 0, s => s
  | _ + 1, [] => []
  | n + 1, c :: rest =>
    if c = '(' then
      match parenMatch words rest with
      | some k => removeParensF words n (rest.drop k)
      | none => c :: removeParensF words n rest
    else c :: removeParensF words n rest

/-- Wrapper running `removeParensF` with sufficient fuel. -/
def removeParensW (words : List (List Char)) (s : List Char) : List Char :=
  removeParensF words s.length s

/-- Apply one annotation pattern (one `re.sub`). -/
def applyAnn (p : AnnPattern) (s : List Char) : List Char :=
  match p with
  | AnnPattern.bracketAny => removeBrackets s
  | AnnPattern.parenWords ws => removeParensW ws s

/-- `remove_annotations`: fold the language's annotation patterns over the
text in listed order (unknown languages fall back to English via
`configGet`). -/
def remove_annotations (text : List Char) (lang : List Char) : List Char :=
  ((configGet lang).annPats).foldl (fun t p => applyAnn p t) text

/-! ### `parse_subtitle_file`

The file system is the only IO boundary: the model takes the file's raw
text and the path's extension (`p.suffix`) as arguments instead of reading
from disk (`errors='replace'` decoding only affects invalid byte sequences,
which the text-level model does not see). -/

/-- Index of the first `'\n'`. -/
def findNl : List Char → Option Nat
  | [] => none
  | c :: rest =>
    if c = '\n' then some 0 else (findNl rest).map (fun k => k + 1)

/-- Index of the last `'\n'`. -/
def lastNl (w : List Char) : Option Nat :=
  (findNl w.reverse).map (fun j => w.length - 1 - j)

/-- `re.split(r'\n\s*\n+', ...)` separator test: if the text starts with a
block separator, the number `k` such that the separator consumes `k + 2`
characters.  A separator match starts at a `'\n'`, requires at least one
more `'\n'` in the maximal whitespace run that follows, and — with `\s*`
greedy and `\n+` backtracked to the run's final newline block — ends at the
*last* `'\n'` of that run. -/
def sepK : List Char → Option Nat
  | '\n' :: rest => lastNl (rest.takeWhile (fun c => isSpace c))
  | _ => none

/-- `re.split(r'\n\s*\n+', normalized)` with fuel: split at each separator
(leftmost-first), keeping empty pieces as Python does. -/
def splitBlocksF : Nat → List Char → List Char → List (List Char)
  | 0, acc, s => [acc.reverse ++ s]
  | _ + 1, acc, [] => [acc.reverse]
  | n + 1, acc, c :: rest =>
    match sepK (c :: rest) with
    | some k => acc.reverse :: splitBlocksF n [] (rest.drop (k + 1))
    | none => splitBlocksF n (c :: acc) rest

/-- Wrapper running `splitBlocksF` with sufficient fuel. -/
def splitBlocks (s : List Char) : List (List Char) := splitBlocksF s.length [] s

/-- `[ln for ln in block.split('\n') if ln.strip()]`. -/
def keptLines (block : List Char) : List (List Char) :=
  (splitOnChar '\n' block).filter (fun ln => !(strip ln).isEmpty)

/-- Is `c` an ASCII digit (`\d` on the inputs this program meets)? -/
def isDigitB (c : Char) : Bool := '0' ≤ c && c ≤ '9'

/-- Consume exactly `k` digits. -/
def eatDigits : Nat → List Char → Option (List Char)
  | 0, s => some s
  | _ + 1, [] => none
  | k + 1, c :: rest => if isDigitB c then eatDigits k rest else none

/-- Consume one given character. -/
def eatCh (ch : Char) : List Char → Option (List Char)
  | [] => none
  | c :: rest => if c = ch then some rest else none

/-- Consume `[.,]`. -/
def eatDotComma : List Char → Option (List Char)
  | [] => none
  | c :: rest => if c = '.' || c = ',' then some rest else none

/-- Consume `\d{1,2}` followed (in `timePart`) by `':'`: greedily take two
digits if available, else one; the two choices are mutually exclusive once
the following `':'` is required, so no further backtracking exists. -/
def eatHH : List Char → Option (List Char)
  | [] => none
  | c :: rest =>
    if isDigitB c then
      match rest with
      | c2 :: r2 => if isDigitB c2 then some r2 else some rest
      | [] => some []
    else none

/-- Match `\d{1,2}:\d{2}:\d{2}[.,]\d{3}` at the head of `s`. -/
def timePart (s : List Char) : Option (List Char) :=
  (eatHH s).bind (fun s =>
  (eatCh ':' s).bind (fun s =>
  (eatDigits 2 s).bind (fun s =>
  (eatCh ':' s).bind (fun s =>
  (eatDigits 2 s).bind (fun s =>
  (eatDotComma s).bind (fun s =>
  eatDigits 3 s))))))

/-- Match the whole VTT timestamp-range pattern
`\d{1,2}:\d{2}:\d{2}[.,]\d{3}\s*-->\s*\d{1,2}:\d{2}:\d{2}[.,]\d{3}`
at the head of `s` (the greedy `\s*` stops exactly at the first non-space,
which must be `'-'`). -/
def tsMatchAt (s : List Char) : Bool :=
  ((timePart s).bind (fun s =>
    let s := s.dropWhile (fun c => isSpace c)
    (eatCh '-' s).bind (fun s =>
    (eatCh '-' s).bind (fun s =>
    (eatCh '>' s).bind (fun s =>
    let s := s.dropWhile (fun c => isSpace c)
    timePart s))))).isSome

/-- `timestamp_re.search(line)`. -/
def tsSearch (line : List Char) : Bool := line.tails.any tsMatchAt

/-- The lines after the first line on which `p` holds; `[]` when no line
matches or the matching line is last (both falsy in the source). -/
def linesAfterFirst (p : List Char → Bool) : List (List Char) → List (List Char)
  | [] => []
  | l :: ls => if p l then ls else linesAfterFirst p ls

/-- `'-->' in line`. -/
def hasArrow (line : List Char) : Bool := containsSubB (cstr "-->") line

/-- Join caption lines with one space, strip cue-styling tags. -/
def joinText (lns : List (List Char)) : List Char :=
  remove_subtitle_formatting (joinSep [' '] lns)

/-- Processing of one VTT block: drop whitespace-only lines; skip header
and note blocks; take the lines after the timestamp line as caption text;
keep the stripped joined text when nonempty. -/
def vttCaption (block : List Char) : Option (List Char) :=
  match keptLines block with
  | [] => none
  | l0 :: rest =>
    if startsWithB (cstr "WEBVTT") l0 || startsWithB (cstr "NOTE") l0 then none
    else
      match linesAfterFirst tsSearch (l0 :: rest) with
      | [] => none
      | ct =>
        let text := strip (joinText ct)
        if text.isEmpty then none else some text

/-- Processing of one SRT block: like VTT but the timestamp line is any
line containing `-->`; if that yields nothing and the second line contains
`-->`, the caption text is the lines from the third onward. -/
def srtCaption (block : List Char) : Option (List Char) :=
  match keptLines block with
  | [] => none
  | l0 :: rest =>
    let ct := linesAfterFirst hasArrow (l0 :: rest)
    let ct :=
      match ct, rest with
      | [], l1 :: r1 => if hasArrow l1 then r1 else []
      | ct2, _ => ct2
    match ct with
    | [] => none
    | ct =>
      let text := strip (joinText ct)
      if text.isEmpty then none else some text

/-- Format resolution for `fmt='auto'` (otherwise the hint is used as-is):
a `.vtt` extension or a leading `WEBVTT` header (after stripping leading
whitespace) means VTT; else a `.srt` extension or a `-->` anywhere means
SRT; else VTT. -/
def detectFormat (fmtHint suffixLower normalized : List Char) : List Char :=
  if fmtHint = cstr "auto" then
    if suffixLower = cstr ".vtt" ∨
       startsWithB (cstr "WEBVTT") (lstrip normalized) = true then cstr "vtt"
    else if suffixLower = cstr ".srt" ∨
            containsSubB (cstr "-->") normalized = true then cstr "srt"
    else cstr "vtt"
  else fmtHint

/-- `parse_subtitle_file(sub_path, fmt)` on the file's raw text and the
path's extension: returns `(captions, detected_format)`. -/
def parse_subtitle_file (raw suffix fmt : List Char) :
    List (List Char) × List Char :=
  let normalized := normalizeNewlines raw
  let blocks := splitBlocks normalized
  let detected := detectFormat fmt (lower suffix) normalized
  let captions :=
    if detected = cstr "vtt" then blocks.filterMap vttCaption
    else if detected = cstr "srt" then blocks.filterMap srtCaption
    else []
  (captions, detected)

/-! ### `remove_duplicates` and `merge_into_paragraphs` -/

/-- The inner loop of `remove_duplicates`: `last` is the most recently
retained caption (`cleaned[-1]`). -/
def dedupAux : List Char → List (List Char) → List (List Char)
  | _, [] => []
  | last, c :: rest =>
    if lower c = lower last then dedupAux last rest
    else c :: dedupAux c rest

/-- `remove_duplicates`: drop each caption that is case-insensitively equal
to the previously retained one. -/
def remove_duplicates : List (List Char) → List (List Char)
  | [] => []
  | c :: rest => c :: dedupAux c rest

/-- `sentence_end.search(cap)` for the pattern `[cls][\s]*$`: a match is a
class character followed only by whitespace up to the end of the string
(Python's `$` also matches before a final newline, but a newline is itself
`\s`, so that case adds nothing): equivalently, the text ends — after
right-stripping — with a class character. -/
def sentenceEndSearch (cls : List Char) (s : List Char) : Bool :=
  match (rstrip s).getLast? with
  | some c => cls.contains c
  | none => false

/-- The accumulating loop of `merge_into_paragraphs`: `current` is the open
paragraph group, flushed (joined by newlines) at each sentence end and at
the end of the stream. -/
def mergeAux (send : List Char) :
    List (List Char) → List (List Char) → List (List Char)
  | current, [] => if current = [] then [] else [joinSep ['\n'] current]
  | current, cap :: caps =>
    if sentenceEndSearch send cap then
      joinSep ['\n'] (current ++ [cap]) :: mergeAux send [] caps
    else mergeAux send (current ++ [cap]) caps

/-- `merge_into_paragraphs`. -/
def merge_into_paragraphs (captions : List (List Char)) (lang : List Char) :
    List (List Char) :=
  if captions = [] then []
  else mergeAux (configGet lang).sentEnd [] captions

/-! ### `fix_capitalization` -/

/-- `[.!?]`. -/
def sentPunct3 (c : Char) : Bool := c = '.' || c = '!' || c = '?'

/-- `[a-z]`. -/
def isAsciiLower (c : Char) : Bool := 'a' ≤ c && c ≤ 'z'

/-- Regex word character (`\w`): ASCII letters, digits, underscore, and CJK
ideographs (the word characters occurring in this pipeline's inputs). -/
def isWordChar (c : Char) : Bool := c.isAlphanum || c = '_' || isCJK c

/-- Does a word character stand at index `i`? (`false` beyond the end.) -/
def wordAt (s : List Char) (i : Nat) : Bool :=
  match s.drop i with
  | c :: _ => isWordChar c
  | [] => false

/-- Is the character at index `i` preceded by one or more whitespace
characters that are themselves preceded by `.`, `!` or `?`? -/
def afterPunctWs (s : List Char) (i : Nat) : Bool :=
  let before := (s.take i).reverse
  let ws := before.takeWhile (fun c => isSpace c)
  match before.drop ws.length with
  | p :: _ => !ws.isEmpty && sentPunct3 p
  | [] => false

/-- `re.sub(r'([.!?]\s+)([a-z])', ..., text)` upper-casing group 2: the
replacement keeps group 1 and only upper-cases the single letter, matches
cannot overlap (the characters before the letter are whitespace and
punctuation, which cannot start or continue another match), so the sub is
the position-wise map upper-casing every lowercase letter preceded by
whitespace preceded by a sentence punctuation mark. -/
def fixCapsAfterPunct (s : List Char) : List Char :=
  s.enum.map (fun pr =>
    if isAsciiLower pr.2 && afterPunctWs s pr.1 then pr.2.toUpper else pr.2)

/-- Does an apostrophe stand at index `i`? -/
def aposAt (s : List Char) (i : Nat) : Bool :=
  match s.drop i with
  | c :: _ => c = '\''
  | [] => false

/-- `re.sub(r'\bi\b', 'I', text)`: replace each `'i'` whose neighbours are
both non-word (or string boundaries); a single-character same-length
replacement, hence a position-wise map. -/
def subStandaloneI (s : List Char) : List Char :=
  s.enum.map (fun pr =>
    if pr.2 = 'i' && (pr.1 = 0 || !wordAt s (pr.1 - 1)) && !wordAt s (pr.1 + 1)
    then 'I' else pr.2)

/-- `re.sub(r"\bi\'", "I'", text)`: replace `'i'` before an apostrophe when
preceded by a boundary. -/
def subIApos (s : List Char) : List Char :=
  s.enum.map (fun pr =>
    if pr.2 = 'i' && (pr.1 = 0 || !wordAt s (pr.1 - 1)) && aposAt s (pr.1 + 1)
    then 'I' else pr.2)

/-- `fix_capitalization` (no-op unless the language's flag is set): fix a
lowercase first character, capitalize after sentence punctuation, then the
two standalone-`i` substitutions, in source order. -/
def fix_capitalization (text lang : List Char) : List Char :=
  if (configGet lang).fixCapFlag then
    let t1 :=
      match text with
      | [] => []
      | c :: rest => if c.isLower then c.toUpper :: rest else c :: rest
    subIApos (subStandaloneI (fixCapsAfterPunct t1))
  else text

/-! ### `clean_spacing` -/

/-- A Python line-break character for `str.splitlines` (besides `\r\n`). -/
def isLineBreak (c : Char) : Bool :=
  c = '\n' || c = '\x0b' || c = '\x0c' || c = '\r' ||
  c = '\x1c' || c = '\x1d' || c = '\x1e' || c = '\x85' ||
  c.toNat = 0x2028 || c.toNat = 0x2029

/-- Accumulating pass of `str.splitlines` (`\r\n` counts as one break). -/
def splitlinesAux (cur : List Char) : List Char → List (List Char)
  | [] => [cur.reverse]
  | c :: rest =>
    if c = '\r' then
      match rest with
      | c2 :: r2 =>
        if c2 = '\n' then cur.reverse :: splitlinesAux [] r2
        else cur.reverse :: splitlinesAux [] (c2 :: r2)
      | [] => [cur.reverse, []]
    else if isLineBreak c then cur.reverse :: splitlinesAux [] rest
    else splitlinesAux (c :: cur) rest

/-- `text.splitlines()`: empty input gives `[]`, and a trailing line break
produces no final empty line. -/
def splitlinesPy (s : List Char) : List (List Char) :=
  match s with
  | [] => []
  | _ =>
    let parts := splitlinesAux [] s
    match parts.getLast? with
    | some [] => parts.dropLast
    | _ => parts

/-- `[ \t]`. -/
def isST (c : Char) : Bool := c = ' ' || c = '\t'

/-- Pattern `ws+CJK` after a CJK character: the length of the (nonempty)
whitespace run when a CJK character follows it. -/
def wsCJKLen (rest : List Char) : Option Nat :=
  let w := rest.takeWhile (fun c => isSpace c)
  if w.isEmpty then none
  else
    match rest.drop w.length with
    | c2 :: _ => if isCJK c2 then some w.length else none
    | [] => none

/-- `re.sub(r'([一-鿿])\s+([一-鿿])', r'\1\2', line)` with fuel: delete the
whitespace between two CJK ideographs; as in Python, scanning resumes
*after* the second ideograph (so in `汉 字 文` only the first gap is
collapsed in this pass). -/
def zhCollapseF : Nat → List Char → List Char
  | 0, s => s
  | _ + 1, [] => []
  | n + 1, c :: rest =>
    if isCJK c then
      match wsCJKLen rest with
      | some k =>
        match rest.drop k with
        | c2 :: _ => c :: c2 :: zhCollapseF n (rest.drop (k + 1))
        | [] => c :: zhCollapseF n rest
      | none => c :: zhCollapseF n rest
    else c :: zhCollapseF n rest

/-- Wrapper running `zhCollapseF` with sufficient fuel. -/
def zhCollapse (s : List Char) : List Char := zhCollapseF s.length s

/-- `re.sub(r'[ \t]{2,}', ' ', line)` with fuel: replace each run of two or
more spaces/tabs by one space; a single space or tab is left unchanged. -/
def collapseSpaceTabF : Nat → List Char → List Char
  | 0, s => s
  | _ + 1, [] => []
  | n + 1, c :: rest =>
    if isST c then
      let run := rest.takeWhile isST
      if run.isEmpty then c :: collapseSpaceTabF n rest
      else ' ' :: collapseSpaceTabF n (rest.drop run.length)
    else c :: collapseSpaceTabF n rest

/-- Wrapper running `collapseSpaceTabF` with sufficient fuel. -/
def collapseSpaceTab (s : List Char) : List Char := collapseSpaceTabF s.length s

/-- `re.sub(r'[ \t]+([puncts])', r'\1', line)` with fuel: delete each
space/tab run immediately preceding one of the punctuation characters. -/
def dropWsBeforePunctF (puncts : List Char) : Nat → List Char → List Char
  | 0, s => s
  | _ + 1, [] => []
  | n + 1, c :: rest =>
    if isST c then
      let run := rest.takeWhile isST
      match rest.drop run.length with
      | p :: _ =>
        if puncts.contains p then dropWsBeforePunctF puncts n (rest.drop run.length)
        else c :: dropWsBeforePunctF puncts n rest
      | [] => c :: dropWsBeforePunctF puncts n rest
    else c :: dropWsBeforePunctF puncts n rest

/-- Wrapper running `dropWsBeforePunctF` with sufficient fuel. -/
def dropWsBeforePunct (puncts : List Char) (s : List Char) : List Char :=
  dropWsBeforePunctF puncts s.length s

/-- `re.sub(r'[ \t]+', ' ', line)` with fuel. -/
def collapseWsEnF : Nat → List Char → List Char
  | 0, s => s
  | _ + 1, [] => []
  | n + 1, c :: rest =>
    if isST c then ' ' :: collapseWsEnF n (rest.dropWhile isST)
    else c :: collapseWsEnF n rest

/-- Wrapper running `collapseWsEnF` with sufficient fuel. -/
def collapseWsEn (s : List Char) : List Char := collapseWsEnF s.length s

/-- `[,.!?;:]`. -/
def enPunct : List Char := [',', '.', '!', '?', ';', ':']

/-- `[A-Za-z]`. -/
def isAsciiLetter (c : Char) : Bool :=
  ('A' ≤ c && c ≤ 'Z') || ('a' ≤ c && c ≤ 'z')

/-- The full-width punctuation class `[，。！？、；：]`. -/
def zhPunct : List Char := ['，', '。', '！', '？', '、', '；', '：']

/-- `re.sub(r'([,.!?;:])([A-Za-z])', r'\1 \2', line)`: insert a space
between each adjacent punctuation/letter pair (matches cannot overlap, as
a letter is never punctuation). -/
def spaceAfterPunct : List Char → List Char
  | [] => []
  | [c] => [c]
  | p :: c :: rest =>
    if enPunct.contains p && isAsciiLetter c then
      p :: ' ' :: spaceAfterPunct (c :: rest)
    else p :: spaceAfterPunct (c :: rest)

/-- `clean_spacing`: per line (blank lines become empty strings), apply the
language's spacing rules in source order, strip the line, then join with
newlines and strip the whole text. -/
def clean_spacing (text lang : List Char) : List Char :=
  let lines := splitlinesPy text
  let cleaned := lines.map (fun line =>
    if (strip line).isEmpty then []
    else if lang = cstr "zh_tw" ∨ lang = cstr "zh_cn" then
      strip (dropWsBeforePunct zhPunct (collapseSpaceTab (zhCollapse line)))
    else
      strip (spaceAfterPunct (dropWsBeforePunct enPunct (collapseWsEn line))))
  strip (joinSep ['\n'] cleaned)

/-! ### `convert_subtitles_to_text` and the deprecated alias -/

/-- `convert_subtitles_to_text(sub_path, output_path, lang, fmt)` on the
file's raw text and extension, returning the converted text (writing the
optional output file and the console prints have no effect on the returned
string and are not modelled). -/
def convert_subtitles_to_text (raw suffix lang fmt : List Char) : List Char :=
  let captions := (parse_subtitle_file raw suffix fmt).1
  let lang2 :=
    if lang = cstr "auto" then
      detect_language (joinSep [' '] (captions.take 10))
    else lang
  let caps1 := captions.map (fun c => remove_annotations c lang2)
  let caps2 := (caps1.map strip).filter (fun c => !c.isEmpty)
  let caps3 := remove_duplicates caps2
  let paragraphs := merge_into_paragraphs caps3 lang2
  let cleaned :=
    (paragraphs.map (fun p => clean_spacing (fix_capitalization p lang2) lang2)).filter
      (fun p => !p.isEmpty)
  joinSep ['\n', '\n'] cleaned

/-- `convert_vtt_to_text`, the backwards-compatible alias: delegates with
`fmt='vtt'`. -/
def convert_vtt_to_text (raw suffix lang : List Char) : List Char :=
  convert_subtitles_to_text raw suffix lang (cstr "vtt")

/-! ### Statement-side definitions and concrete inputs -/

/-- Does the text contain a complete bracket pair, i.e. a `'['` with some
`']'` after it?  (Newline-free captions are the inputs of interest, so no
newline condition is needed.) -/
def hasPair : List Char → Bool
  | [] => false
  | c :: rest => (if c = '[' then decide ((']' : Char) ∈ rest) else false) || hasPair rest

/-- The two-cue English WebVTT file of the end-to-end scenario. -/
def c1vtt : List Char :=
  cstr "WEBVTT\n\n00:00:01.000 --> 00:00:04.000\nHello and welcome to this tutorial.\n\n00:00:05.000 --> 00:00:08.000\nToday we're going to learn about video text tracks.\n"

/-- The expected output of the end-to-end scenario. -/
def c1expected : List Char :=
  cstr "Hello and welcome to this tutorial.\n\nToday we're going to learn about video text tracks."

/-- SRT-shaped content: no `WEBVTT` header, contains `-->`. -/
def srtShaped : List Char := cstr "1\n00:00:01,000 --> 00:00:02,000\nHi"

/-- A well-formed one-cue WebVTT file. -/
def oneCueVtt : List Char :=
  cstr "WEBVTT\n\n00:00:01.000 --> 00:00:02.000\nHello there.\n"

/-- A sample whose Simplified indicator *occurrences* outnumber the
Traditional ones (3 vs 2) while fewer *distinct* Simplified indicators
occur (1 vs 2). -/
def cjkSample : List Char := cstr "这这这臺灣"

/-! ## Theorems -/

theorem prefixOfB_iff (p s : List Char) :
    prefixOfB p s = true ↔ ∃ t, s = p ++ t := by
  induction p generalizing s with
  | nil =>
    simp [prefixOfB]
  | cons c p ih =>
    cases s with
    | nil => simp [prefixOfB]
    | cons x xs =>
      simp only [prefixOfB, Bool.and_eq_true, decide_eq_true_eq, ih,
        List.cons_append, List.cons.injEq]
      constructor
      · rintro ⟨rfl, t, rfl⟩; exact ⟨t, rfl, rfl⟩
      · rintro ⟨t, rfl, rfl⟩; exact ⟨rfl, t, rfl⟩

theorem startsWithB_append (p t : List Char) :
    startsWithB p (p ++ t) = true :=
  (prefixOfB_iff p (p ++ t)).mpr ⟨t, rfl⟩

theorem normalizeNewlines_append (a s : List Char) (h : ∀ c ∈ a, c ≠ '\r') :
    normalizeNewlines (a ++ s) = a ++ normalizeNewlines s := by
  induction a with
  | nil => rfl
  | cons c a ih =>
    have hc : c ≠ '\r' := h c (List.mem_cons_self c a)
    have ha : ∀ x ∈ a, x ≠ '\r' := fun x hx => h x (List.mem_cons_of_mem _ hx)
    rw [List.cons_append, normalizeNewlines.eq_def]
    simp only [if_neg hc, ih ha, List.cons_append]

theorem parse_snd (raw suffix fmt : List Char) :
    (parse_subtitle_file raw suffix fmt).2 =
      detectFormat fmt (lower suffix) (normalizeNewlines raw) := rfl

theorem lstrip_cons_not_space (c : Char) (s : List Char) (h : isSpace c = false) :
    lstrip (c :: s) = c :: s := by
  simp [lstrip, List.dropWhile_cons, h]

/-- Claim C1: on the English WebVTT input with the two cues
"Hello and welcome to this tutorial." and
"Today we're going to learn about video text tracks." separated by a blank
block, `convert_subtitles_to_text` returns exactly the two paragraphs
joined by a blank line — both with explicit English/VTT options and with
both options on auto. -/
theorem c1_end_to_end :
    convert_subtitles_to_text c1vtt (cstr ".vtt") (cstr "en") (cstr "vtt") =
      c1expected ∧
    convert_subtitles_to_text c1vtt (cstr ".vtt") (cstr "auto") (cstr "auto") =
      c1expected := by
  constructor <;> decide

/-- Claim C2, counterexample: SRT-shaped content (no `WEBVTT` header, a
`-->` present) inside a file with a `.vtt` extension is detected as VTT,
not SRT — refuting "parsed as SRT regardless of its extension". -/
theorem c2_auto_detection_counterexample :
    containsSubB (cstr "-->") srtShaped = true ∧
    startsWithB (cstr "WEBVTT") srtShaped = false ∧
    (parse_subtitle_file srtShaped (cstr ".vtt") (cstr "auto")).2 = cstr "vtt" ∧
    (parse_subtitle_file srtShaped (cstr ".vtt") (cstr "auto")).2 ≠ cstr "srt" := by
  refine ⟨by decide, by decide, by decide, by decide⟩

/-- Claim C2, amended: with hint `auto`, content starting with `WEBVTT` is
parsed as VTT regardless of extension; and content containing `-->` is
parsed as SRT provided additionally that the lowercased extension is not
`.vtt` and the normalized content does not start, after leading
whitespace, with `WEBVTT`. -/
theorem c2_auto_detection_amended (raw suffix : List Char) :
    (startsWithB (cstr "WEBVTT") raw = true →
      (parse_subtitle_file raw suffix (cstr "auto")).2 = cstr "vtt") ∧
    (lower suffix ≠ cstr ".vtt" →
     startsWithB (cstr "WEBVTT") (lstrip (normalizeNewlines raw)) = false →
     containsSubB (cstr "-->") (normalizeNewlines raw) = true →
      (parse_subtitle_file raw suffix (cstr "auto")).2 = cstr "srt") := by
  constructor
  · intro h
    obtain ⟨t, rfl⟩ := (prefixOfB_iff _ _).mp h
    rw [parse_snd,
      normalizeNewlines_append (cstr "WEBVTT") t (by decide)]
    have hW : cstr "WEBVTT" ++ normalizeNewlines t =
        'W' :: (cstr "EBVTT" ++ normalizeNewlines t) := rfl
    unfold detectFormat
    rw [if_pos rfl, if_pos]
    exact Or.inr (by
      rw [hW, lstrip_cons_not_space 'W' _ (by decide), ← hW]
      exact startsWithB_append _ _)
  · intro h1 h2 h3
    rw [parse_snd]
    unfold detectFormat
    rw [if_pos rfl, if_neg, if_pos (Or.inr h3)]
    rintro (h | h)
    · exact h1 h
    · rw [h2] at h; cases h

theorem c2_auto_detection_amended_witness :
    (parse_subtitle_file (cstr "WEBVTT\nx") (cstr ".srt") (cstr "auto")).2 =
      cstr "vtt" ∧
    (parse_subtitle_file Subtitle.srtShaped (cstr ".txt") (cstr "auto")).2 =
      cstr "srt" :=
  ⟨(c2_auto_detection_amended (cstr "WEBVTT\nx") (cstr ".srt")).1 (by decide),
   (c2_auto_detection_amended Subtitle.srtShaped (cstr ".txt")).2
     (by decide) (by decide) (by decide)⟩

/-- Claim C3, counterexample: on the sample `这这这臺灣` the total
occurrences of Traditional indicator characters (2) do not exceed the
Simplified ones (3), and the CJK threshold is exceeded, so the claim's
occurrence-counting rule demands `zh_cn`; the code returns `zh_tw`,
because it counts *distinct indicator characters present* (2 vs 1), not
occurrences. -/
theorem c3_detect_language_counterexample :
    detect_language cjkSample = cstr "zh_tw" ∧
    occTotal traditional_indicators cjkSample = 2 ∧
    occTotal simplified_indicators cjkSample = 3 ∧
    10 * (cjkSample.filter isCJK).length > 3 * cjkSample.length := by
  refine ⟨by decide, by decide, by decide, by decide⟩

/-- Claim C3, amended: `detect_language` is total with values in
`en`/`zh_tw`/`zh_cn`; if the CJK-ideograph count exceeds 30% of the sample
length it returns `zh_tw` exactly when *more distinct Traditional
indicator characters occur in the sample* than Simplified ones (ties and
fewer favour Simplified), and `zh_cn` otherwise; samples not exceeding the
threshold — including the empty sample — give `en`. -/
theorem c3_detect_language_amended (text : List Char) :
    (detect_language text = cstr "en" ∨ detect_language text = cstr "zh_tw" ∨
     detect_language text = cstr "zh_cn") ∧
    detect_language text =
      (if 3 * text.length < 10 * (text.filter isCJK).length then
        if (simplified_indicators.filter (fun c => text.contains c)).length <
           (traditional_indicators.filter (fun c => text.contains c)).length
        then cstr "zh_tw" else cstr "zh_cn"
      else cstr "en") := by
  have h2 : detect_language text =
      (if 3 * text.length < 10 * (text.filter isCJK).length then
        if (simplified_indicators.filter (fun c => text.contains c)).length <
           (traditional_indicators.filter (fun c => text.contains c)).length
        then cstr "zh_tw" else cstr "zh_cn"
      else cstr "en") := by
    by_cases h : text = []
    · subst h; decide
    · rw [detect_language, if_neg h]; rfl
  refine ⟨?_, h2⟩
  rw [h2]
  split
  · split
    · exact Or.inr (Or.inl rfl)
    · exact Or.inr (Or.inr rfl)
  · exact Or.inl rfl

/-- Claim C6, counterexample: for the Chinese languages, the English
parenthesized annotation "(Applause)" is *not* removed (the zh annotation
lists contain no English paren pattern), contrary to the claim. -/
theorem c6_annotations_counterexample :
    remove_annotations (cstr "(Applause)") (cstr "zh_tw") = cstr "(Applause)" ∧
    remove_annotations (cstr "(Applause)") (cstr "zh_cn") = cstr "(Applause)" := by
  refine ⟨by decide, by decide⟩

/-- Claim C6, amended: annotation removal strips, case-insensitively and
in listed pattern order, the localized bracket and paren annotations of
each language and — for all languages — English (indeed arbitrary)
bracketed annotations; but for `zh_tw`/`zh_cn` an English *parenthesized*
annotation such as "(Applause)" is not removed, paren removal being
limited to the language's own word list. -/
theorem c6_annotations_amended :
    remove_annotations (cstr "[Music]") (cstr "en") = [] ∧
    remove_annotations (cstr "(applause)") (cstr "en") = [] ∧
    remove_annotations (cstr "(APPLAUSE)") (cstr "en") = [] ∧
    remove_annotations (cstr "[music]") (cstr "en") = [] ∧
    remove_annotations (cstr "[音樂]") (cstr "zh_tw") = [] ∧
    remove_annotations (cstr "(掌聲)") (cstr "zh_tw") = [] ∧
    remove_annotations (cstr "(無法聽清)") (cstr "zh_tw") = [] ∧
    remove_annotations (cstr "[Music]") (cstr "zh_tw") = [] ∧
    remove_annotations (cstr "[音乐]") (cstr "zh_cn") = [] ∧
    remove_annotations (cstr "(笑声)") (cstr "zh_cn") = [] ∧
    remove_annotations (cstr "[applause]") (cstr "zh_cn") = [] ∧
    remove_annotations (cstr "(Applause)") (cstr "zh_tw") = cstr "(Applause)" ∧
    remove_annotations (cstr "(Applause)") (cstr "zh_cn") = cstr "(Applause)" := by
  decide

/-- Claim C8: the deprecated entry point equals the general entry point
with the format explicitly set to `vtt`, for every input, extension and
language option. -/
theorem c8_alias_refinement (raw suffix lang : List Char) :
    convert_vtt_to_text raw suffix lang =
      convert_subtitles_to_text raw suffix lang (cstr "vtt") := rfl

/-- Claim C9: conversion is deterministic — the model is a pure function
of the file content and the options, so two runs coincide. -/
theorem c9_deterministic (raw suffix lang fmt : List Char) :
    convert_subtitles_to_text raw suffix lang fmt =
      convert_subtitles_to_text raw suffix lang fmt := rfl

theorem dedupAux_cons (last c : List Char) (rest : List (List Char)) :
    dedupAux last (c :: rest) =
      if lower c = lower last then dedupAux last rest
      else c :: dedupAux c rest := rfl

theorem dedupAux_chain (rest : List (List Char)) :
    ∀ last, List.Chain' (fun a b => lower a ≠ lower b) (last :: dedupAux last rest) := by
  induction rest with
  | nil => intro last; simp [dedupAux]
  | cons c r ih =>
    intro last
    rw [dedupAux_cons]
    by_cases h : lower c = lower last
    · rw [if_pos h]; exact ih last
    · rw [if_neg h]
      exact List.chain'_cons.mpr ⟨fun e => h e.symm, ih c⟩

/-- Claim C4: deduplication keeps the first caption and then drops a
caption exactly when it is case-insensitively equal to the immediately
preceding *retained* caption (the recursive characterization); hence the
result has no two consecutive case-insensitively equal captions, and a
non-adjacent repeat `[a, b, a]` is kept in full. -/
theorem c4_dedup_adjacent_only (captions : List (List Char)) :
    List.Chain' (fun a b => lower a ≠ lower b) (remove_duplicates captions) ∧
    (∀ x y rest, remove_duplicates (x :: y :: rest) =
        if lower y = lower x then remove_duplicates (x :: rest)
        else x :: remove_duplicates (y :: rest)) ∧
    (∀ a b, lower a ≠ lower b → remove_duplicates [a, b, a] = [a, b, a]) := by
  refine ⟨?_, ?_, ?_⟩
  · cases captions with
    | nil => simp [remove_duplicates]
    | cons c rest => exact dedupAux_chain rest c
  · intro x y rest
    show x :: dedupAux x (y :: rest) = _
    rw [dedupAux_cons]
    by_cases h : lower y = lower x
    · rw [if_pos h, if_pos h]; rfl
    · rw [if_neg h, if_neg h]; rfl
  · intro a b h
    have h' : lower b ≠ lower a := fun e => h e.symm
    show a :: dedupAux a [b, a] = [a, b, a]
    rw [dedupAux_cons, if_neg h', dedupAux_cons, if_neg h]
    rfl

theorem c4_dedup_adjacent_only_witness :
    List.Chain' (fun a b => lower a ≠ lower b)
      (remove_duplicates [cstr "A", cstr "a", cstr "b", cstr "A"]) ∧
    remove_duplicates [cstr "A", cstr "B", cstr "A"] =
      [cstr "A", cstr "B", cstr "A"] :=
  ⟨(c4_dedup_adjacent_only [cstr "A", cstr "a", cstr "b", cstr "A"]).1,
   (c4_dedup_adjacent_only []).2.2 (cstr "A") (cstr "B") (by decide)⟩

theorem splitOnChar_cons (sep c : Char) (s : List Char) :
    splitOnChar sep (c :: s) =
      if c = sep then [] :: splitOnChar sep s
      else
        match splitOnChar sep s with
        | [] => [[c]]
        | l :: ls => (c :: l) :: ls := rfl

theorem splitOnChar_append (sep : Char) (a s l : List Char)
    (ls : List (List Char)) (h : sep ∉ a) (hs : splitOnChar sep s = l :: ls) :
    splitOnChar sep (a ++ s) = (a ++ l) :: ls := by
  induction a with
  | nil => simpa using hs
  | cons c a ih =>
    have hc : c ≠ sep := fun e => h (by rw [e]; exact List.mem_cons_self _ _)
    have ha : sep ∉ a := fun hx => h (List.mem_cons_of_mem _ hx)
    rw [List.cons_append, splitOnChar_cons, if_neg hc, ih ha]
    rfl

theorem joinSep_cons₂ (sep : List Char) (x y : List Char)
    (r : List (List Char)) :
    joinSep sep (x :: y :: r) = x ++ sep ++ joinSep sep (y :: r) := rfl

theorem splitOnChar_joinSep (sep : Char) (cur : List (List Char))
    (hne : cur ≠ []) (h : ∀ c ∈ cur, sep ∉ c) :
    splitOnChar sep (joinSep [sep] cur) = cur := by
  induction cur with
  | nil => exact absurd rfl hne
  | cons x cur ih =>
    cases cur with
    | nil =>
      have hx : sep ∉ x := h x (List.mem_cons_self _ _)
      have : splitOnChar sep (x ++ []) = (x ++ []) :: ([] : List (List Char)) :=
        splitOnChar_append sep x [] [] [] hx rfl
      simpa using this
    | cons y r =>
      have hx : sep ∉ x := h x (List.mem_cons_self _ _)
      have hrest : ∀ c ∈ y :: r, sep ∉ c :=
        fun c hc => h c (List.mem_cons_of_mem _ hc)
      rw [joinSep_cons₂, List.append_assoc, List.cons_append, List.nil_append]
      have := splitOnChar_append sep x _ [] (y :: r) hx
        (by rw [splitOnChar_cons, if_pos rfl, ih (by simp) hrest])
      simpa using this

theorem mergeAux_cons (send : List Char) (current : List (List Char))
    (cap : List Char) (caps : List (List Char)) :
    mergeAux send current (cap :: caps) =
      if sentenceEndSearch send cap then
        joinSep ['\n'] (current ++ [cap]) :: mergeAux send [] caps
      else mergeAux send (current ++ [cap]) caps := rfl

theorem mergeAux_join (send : List Char) (caps : List (List Char)) :
    ∀ current : List (List Char),
      (∀ c ∈ current, ('\n' : Char) ∉ c) → (∀ c ∈ caps, ('\n' : Char) ∉ c) →
      ((mergeAux send current caps).map (splitOnChar '\n')).flatten =
        current ++ caps := by
  induction caps with
  | nil =>
    intro current hcur _
    by_cases hc : current = []
    · subst hc; simp [mergeAux]
    · show ((if current = [] then [] else [joinSep ['\n'] current]).map
        (splitOnChar '\n')).flatten = current ++ []
      rw [if_neg hc]
      simp [splitOnChar_joinSep '\n' current hc hcur]
  | cons cap caps ih =>
    intro current hcur hcaps
    have hcap : ('\n' : Char) ∉ cap := hcaps cap (List.mem_cons_self _ _)
    have hcaps' : ∀ c ∈ caps, ('\n' : Char) ∉ c :=
      fun c hc => hcaps c (List.mem_cons_of_mem _ hc)
    rw [mergeAux_cons]
    by_cases h : sentenceEndSearch send cap = true
    · rw [if_pos h]
      have hall : ∀ c ∈ current ++ [cap], ('\n' : Char) ∉ c := by
        intro c hc
        rcases List.mem_append.mp hc with h1 | h1
        · exact hcur c h1
        · rw [List.mem_singleton.mp h1]; exact hcap
      simp only [List.map_cons, List.flatten_cons]
      rw [splitOnChar_joinSep '\n' (current ++ [cap]) (by simp) hall,
        ih [] (by simp) hcaps']
      simp
    · rw [if_neg h]
      have hall : ∀ c ∈ current ++ [cap], ('\n' : Char) ∉ c := by
        intro c hc
        rcases List.mem_append.mp hc with h1 | h1
        · exact hcur c h1
        · rw [List.mem_singleton.mp h1]; exact hcap
      rw [ih (current ++ [cap]) hall hcaps']
      simp

/-- Claim C5: the paragraphs produced by the paragraph-merge step are a
strict partition of the caption sequence: splitting each paragraph back on
its newline separators and concatenating the pieces in paragraph order
reproduces the input captions exactly (captions being single lines, i.e.
newline-free, per the data model), for every language. -/
theorem c5_paragraph_partition (captions : List (List Char)) (lang : List Char)
    (h : ∀ c ∈ captions, ('\n' : Char) ∉ c) :
    ((merge_into_paragraphs captions lang).map (splitOnChar '\n')).flatten =
      captions := by
  unfold merge_into_paragraphs
  by_cases hc : captions = []
  · subst hc; simp
  · rw [if_neg hc]
    simpa using mergeAux_join (configGet lang).sentEnd captions [] (by simp) h

theorem c5_paragraph_partition_witness :
    ((merge_into_paragraphs [cstr "Hi.", cstr "and", cstr "more"] (cstr "en")).map
        (splitOnChar '\n')).flatten =
      [cstr "Hi.", cstr "and", cstr "more"] :=
  c5_paragraph_partition [cstr "Hi.", cstr "and", cstr "more"] (cstr "en")
    (by decide)

theorem configGet_unknown (lang : List Char) (h1 : lang ≠ cstr "en")
    (h2 : lang ≠ cstr "zh_tw") (h3 : lang ≠ cstr "zh_cn") :
    configGet lang = enConfig := by
  unfold configGet
  rw [if_neg h1, if_neg h2, if_neg h3]

theorem parse_fst (raw suffix fmt : List Char) :
    (parse_subtitle_file raw suffix fmt).1 =
      (if detectFormat fmt (lower suffix) (normalizeNewlines raw) = cstr "vtt"
       then (splitBlocks (normalizeNewlines raw)).filterMap vttCaption
       else if detectFormat fmt (lower suffix) (normalizeNewlines raw) = cstr "srt"
       then (splitBlocks (normalizeNewlines raw)).filterMap srtCaption
       else []) := rfl

/-- Claim C7, counterexample: an unrecognized format string does *not*
fall back to the default behavior: on a well-formed one-cue VTT file,
format `"xyz"` yields the empty output while the default (`auto`, here
agreeing with `vtt`) yields the cue's text. -/
theorem c7_fallback_counterexample :
    convert_subtitles_to_text oneCueVtt (cstr ".vtt") (cstr "en") (cstr "xyz") = [] ∧
    convert_subtitles_to_text oneCueVtt (cstr ".vtt") (cstr "en") (cstr "auto") =
      cstr "Hello there." ∧
    convert_subtitles_to_text oneCueVtt (cstr ".vtt") (cstr "en") (cstr "vtt") =
      cstr "Hello there." := by
  refine ⟨by decide, by decide, by decide⟩

/-- Claim C7, amended: the conversion never raises (the model is total by
construction); every language string outside the three known codes makes
each language-dependent stage behave exactly as English; every format
string outside `auto`/`vtt`/`srt` yields an *empty caption list* and hence
the empty output string (not the default auto-detection behavior); and
empty content yields the empty output for all options. -/
theorem c7_fallback_amended (raw suffix text lang fmt suffix2 lang2 fmt2 : List Char)
    (captions : List (List Char))
    (h1 : lang ≠ cstr "en") (h2 : lang ≠ cstr "zh_tw") (h3 : lang ≠ cstr "zh_cn")
    (h4 : fmt ≠ cstr "auto") (h5 : fmt ≠ cstr "vtt") (h6 : fmt ≠ cstr "srt") :
    remove_annotations text lang = remove_annotations text (cstr "en") ∧
    merge_into_paragraphs captions lang = merge_into_paragraphs captions (cstr "en") ∧
    fix_capitalization text lang = fix_capitalization text (cstr "en") ∧
    clean_spacing text lang = clean_spacing text (cstr "en") ∧
    (parse_subtitle_file raw suffix fmt).1 = [] ∧
    convert_subtitles_to_text raw suffix lang fmt = [] ∧
    convert_subtitles_to_text [] suffix2 lang2 fmt2 = [] := by
  have hcfg : configGet lang = configGet (cstr "en") := by
    rw [configGet_unknown lang h1 h2 h3]
    rfl
  have hzh : ¬(lang = cstr "zh_tw" ∨ lang = cstr "zh_cn") := by
    rintro (h | h)
    · exact h2 h
    · exact h3 h
  have hzh_en : ¬(cstr "en" = cstr "zh_tw" ∨ cstr "en" = cstr "zh_cn") := by decide
  have hparse : (parse_subtitle_file raw suffix fmt).1 = [] := by
    rw [parse_fst]
    unfold detectFormat
    rw [if_neg h4, if_neg h5, if_neg h6]
  have hconv : convert_subtitles_to_text raw suffix lang fmt = [] := by
    unfold convert_subtitles_to_text
    rw [hparse]
    simp [remove_duplicates, merge_into_paragraphs, joinSep]
  have hempty : convert_subtitles_to_text [] suffix2 lang2 fmt2 = [] := by
    have hp : (parse_subtitle_file [] suffix2 fmt2).1 = [] := by
      rw [parse_fst]
      split
      · decide
      · split
        · decide
        · rfl
    unfold convert_subtitles_to_text
    rw [hp]
    simp [remove_duplicates, merge_into_paragraphs, joinSep]
  refine ⟨?_, ?_, ?_, ?_, hparse, hconv, hempty⟩
  · unfold remove_annotations
    rw [hcfg]
  · unfold merge_into_paragraphs
    rw [hcfg]
  · unfold fix_capitalization
    rw [hcfg]
  · unfold clean_spacing
    simp only [if_neg hzh, if_neg hzh_en]

theorem c7_fallback_amended_witness :
    convert_subtitles_to_text oneCueVtt (cstr ".vtt") (cstr "xx") (cstr "zz") =
      [] ∧
    clean_spacing (cstr "a , b") (cstr "xx") =
      clean_spacing (cstr "a , b") (cstr "en") :=
  ⟨(c7_fallback_amended oneCueVtt (cstr ".vtt") (cstr "a , b") (cstr "xx")
      (cstr "zz") (cstr ".srt") (cstr "auto") (cstr "auto") [cstr "x"]
      (by decide) (by decide) (by decide) (by decide) (by decide)
      (by decide)).2.2.2.2.2.1,
   (c7_fallback_amended oneCueVtt (cstr ".vtt") (cstr "a , b") (cstr "xx")
      (cstr "zz") (cstr ".srt") (cstr "auto") (cstr "auto") [cstr "x"]
      (by decide) (by decide) (by decide) (by decide) (by decide)
      (by decide)).2.2.2.1⟩

theorem hasPair_cons (c : Char) (rest : List Char) :
    hasPair (c :: rest) =
      ((if c = '[' then decide ((']' : Char) ∈ rest) else false) || hasPair rest) := rfl

theorem hasPair_false_of_sublist (t s : List Char) (hsub : t.Sublist s)
    (h : hasPair s = false) : hasPair t = false := by
  induction hsub with
  | slnil => rfl
  | cons a hsub ih =>
    rw [hasPair_cons, Bool.or_eq_false_iff] at h
    exact ih h.2
  | cons₂ a hsub ih =>
    rw [hasPair_cons, Bool.or_eq_false_iff] at h
    rw [hasPair_cons, Bool.or_eq_false_iff]
    refine ⟨?_, ih h.2⟩
    by_cases ha : a = '['
    · rw [if_pos ha] at h ⊢
      have : (']' : Char) ∉ _ := of_decide_eq_false h.1
      exact decide_eq_false (fun hm => this (hsub.subset hm))
    · rw [if_neg ha]

theorem removeBracketsF_succ (n : Nat) (c : Char) (rest : List Char) :
    removeBracketsF (n + 1) (c :: rest) =
      (if c = '[' then
        match closeIdx rest with
        | some k => removeBracketsF n (rest.drop (k + 1))
        | none => c :: removeBracketsF n rest
      else c :: removeBracketsF n rest) := rfl

theorem removeBracketsF_sublist (n : Nat) :
    ∀ s : List Char, (removeBracketsF n s).Sublist s := by
  induction n with
  | zero => intro s; exact List.Sublist.refl s
  | succ n ih =>
    intro s
    cases s with
    | nil => exact List.Sublist.refl []
    | cons c rest =>
      rw [removeBracketsF_succ]
      by_cases hc : c = '['
      · rw [if_pos hc]
        rcases hm : closeIdx rest with _ | k
        · exact (ih rest).cons₂ c
        · exact ((ih _).trans (List.drop_sublist _ _)).trans (List.sublist_cons_self c rest)
      · rw [if_neg hc]
        exact (ih rest).cons₂ c

theorem removeParensF_succ (ws : List (List Char)) (n : Nat) (c : Char)
    (rest : List Char) :
    removeParensF ws (n + 1) (c :: rest) =
      (if c = '(' then
        match parenMatch ws rest with
        | some k => removeParensF ws n (rest.drop k)
        | none => c :: removeParensF ws n rest
      else c :: removeParensF ws n rest) := rfl

theorem removeParensF_sublist (ws : List (List Char)) (n : Nat) :
    ∀ s : List Char, (removeParensF ws n s).Sublist s := by
  induction n with
  | zero => intro s; exact List.Sublist.refl s
  | succ n ih =>
    intro s
    cases s with
    | nil => exact List.Sublist.refl []
    | cons c rest =>
      rw [removeParensF_succ]
      by_cases hc : c = '('
      · rw [if_pos hc]
        rcases hm : parenMatch ws rest with _ | k
        · exact (ih rest).cons₂ c
        · exact ((ih _).trans (List.drop_sublist _ _)).trans (List.sublist_cons_self c rest)
      · rw [if_neg hc]
        exact (ih rest).cons₂ c

theorem closeIdx_cons (c : Char) (rest : List Char) :
    closeIdx (c :: rest) =
      (if c = ']' then some 0
       else if c = '\n' then none
       else (closeIdx rest).map (fun k => k + 1)) := rfl

theorem closeIdx_none_no_close (s : List Char) (hnl : ('\n' : Char) ∉ s)
    (h : closeIdx s = none) : (']' : Char) ∉ s := by
  induction s with
  | nil => simp
  | cons c rest ih =>
    rw [closeIdx_cons] at h
    by_cases h1 : c = ']'
    · rw [if_pos h1] at h; cases h
    · by_cases h2 : c = '\n'
      · exact absurd (by rw [← h2]; exact List.mem_cons_self c rest) hnl
      · rw [if_neg h1, if_neg h2, Option.map_eq_none'] at h
        have hrest : (']' : Char) ∉ rest :=
          ih (fun hm => hnl (List.mem_cons_of_mem _ hm)) h
        intro hm
        rcases List.mem_cons.mp hm with e | e
        · exact h1 e.symm
        · exact hrest e

theorem removeBracketsF_noPair (n : Nat) :
    ∀ s : List Char, s.length ≤ n → ('\n' : Char) ∉ s →
      hasPair (removeBracketsF n s) = false := by
  induction n with
  | zero =>
    intro s hlen _
    have : s = [] := List.length_eq_zero.mp (Nat.le_zero.mp hlen)
    subst this; rfl
  | succ n ih =>
    intro s hlen hnl
    cases s with
    | nil => rfl
    | cons c rest =>
      have hlen' : rest.length ≤ n := by
        simp only [List.length_cons] at hlen; omega
      have hnl' : ('\n' : Char) ∉ rest := fun hm => hnl (List.mem_cons_of_mem _ hm)
      rw [removeBracketsF_succ]
      by_cases hc : c = '['
      · rw [if_pos hc]
        rcases hm : closeIdx rest with _ | k
        · have hnocl : (']' : Char) ∉ rest := closeIdx_none_no_close rest hnl' hm
          rw [hasPair_cons, Bool.or_eq_false_iff]
          refine ⟨?_, ih rest hlen' hnl'⟩
          rw [if_pos hc]
          exact decide_eq_false
            (fun hmem => hnocl ((removeBracketsF_sublist n rest).subset hmem))
        · refine ih (rest.drop (k + 1)) ?_ ?_
          · have := List.length_drop (k + 1) rest
            omega
          · exact fun hmem => hnl' ((List.drop_sublist _ _).subset hmem)
      · rw [if_neg hc, hasPair_cons, Bool.or_eq_false_iff]
        exact ⟨by rw [if_neg hc], ih rest hlen' hnl'⟩

theorem removeParensF_noPair (ws : List (List Char)) (n : Nat) :
    ∀ s : List Char, hasPair s = false →
      hasPair (removeParensF ws n s) = false := by
  induction n with
  | zero => intro s h; exact h
  | succ n ih =>
    intro s h
    cases s with
    | nil => rfl
    | cons c rest =>
      rw [hasPair_cons, Bool.or_eq_false_iff] at h
      obtain ⟨hhead, htail⟩ := h
      rw [removeParensF_succ]
      by_cases hc : c = '('
      · rw [if_pos hc]
        rcases hm : parenMatch ws rest with _ | k
        · rw [hasPair_cons, Bool.or_eq_false_iff]
          refine ⟨?_, ih rest htail⟩
          rw [hc]
          simp
        · exact ih (rest.drop k)
            (hasPair_false_of_sublist _ _ (List.drop_sublist _ _) htail)
      · rw [if_neg hc, hasPair_cons, Bool.or_eq_false_iff]
        refine ⟨?_, ih rest htail⟩
        by_cases hb : c = '['
        · rw [if_pos hb] at hhead ⊢
          have : (']' : Char) ∉ rest := of_decide_eq_false hhead
          exact decide_eq_false
            (fun hmem => this ((removeParensF_sublist ws n rest).subset hmem))
        · rw [if_neg hb]

theorem remAnn_en (s : List Char) :
    remove_annotations s (cstr "en") =
      removeParensW enAnnWords (removeBrackets s) := rfl

theorem remAnn_zh_tw (s : List Char) :
    remove_annotations s (cstr "zh_tw") =
      removeBrackets (removeParensW zhTwAnnWords (removeBrackets s)) := rfl

theorem remAnn_zh_cn (s : List Char) :
    remove_annotations s (cstr "zh_cn") =
      removeBrackets (removeParensW zhCnAnnWords (removeBrackets s)) := rfl

/-- Claim C10: for each supported language, annotation removal only
deletes characters (the result is a sublist of the caption), it deletes
*every* complete bracket pair — no `'['` with a later `']'` survives in
any newline-free caption, whatever stood between them, because every
language's bracket patterns contain the catch-all alternative — and in
particular the speaker label `[John]` is removed. -/
theorem c10_bracket_catchall (lang s : List Char)
    (hlang : lang = cstr "en" ∨ lang = cstr "zh_tw" ∨ lang = cstr "zh_cn")
    (hs : ('\n' : Char) ∉ s) :
    (remove_annotations s lang).Sublist s ∧
    hasPair (remove_annotations s lang) = false ∧
    remove_annotations (cstr "Hi [John] ok") lang = cstr "Hi  ok" := by
  rcases hlang with h | h | h <;> subst h
  · refine ⟨?_, ?_, by decide⟩
    · exact (removeParensF_sublist enAnnWords _ _).trans
        (removeBracketsF_sublist _ _)
    · exact removeParensF_noPair enAnnWords _ _
        (removeBracketsF_noPair _ _ le_rfl hs)
  · refine ⟨?_, ?_, by decide⟩
    · exact ((removeBracketsF_sublist _ _).trans
        (removeParensF_sublist zhTwAnnWords _ _)).trans
        (removeBracketsF_sublist _ _)
    · exact removeBracketsF_noPair _ _ le_rfl
        (fun hm => hs (((removeParensF_sublist zhTwAnnWords _ _).trans
          (removeBracketsF_sublist _ _)).subset hm))
  · refine ⟨?_, ?_, by decide⟩
    · exact ((removeBracketsF_sublist _ _).trans
        (removeParensF_sublist zhCnAnnWords _ _)).trans
        (removeBracketsF_sublist _ _)
    · exact removeBracketsF_noPair _ _ le_rfl
        (fun hm => hs (((removeParensF_sublist zhCnAnnWords _ _).trans
          (removeBracketsF_sublist _ _)).subset hm))

theorem c10_bracket_catchall_witness :
    (remove_annotations (cstr "a[b]c [x] d") (cstr "en")).Sublist
      (cstr "a[b]c [x] d") ∧
    hasPair (remove_annotations (cstr "a[b]c [x] d") (cstr "en")) = false ∧
    remove_annotations (cstr "Hi [John] ok") (cstr "en") = cstr "Hi  ok" :=
  c10_bracket_catchall (cstr "en") (cstr "a[b]c [x] d") (Or.inl rfl) (by decide)

end Subtitle
